import Mathlib

/-!
# Verification of the 3BandEQ audio-processing core

A shallow embedding of the state-manipulating parts of the 3BandEQ plugin
(`Source/PluginProcessor.h/.cpp`, `Source/PluginEditor.h/.cpp`) together with
proofs about them.

Floating-point sample values are modelled as rationals (`ℚ`); machine floats
that can be NaN or infinite in the pipeline are modelled by the two-constructor
type `FloatV`.  Library calls from JUCE that the repository code relies on
(`juce::AbstractFifo`, `juce::Decibels::gainToDecibels`, `juce::jmap`,
`juce::mapFromLog10`) are embedded from their fixed, documented semantics;
`std::log10` is kept as an explicit function parameter, since none of the
proved properties depend on its values.
-/

namespace ThreeBandEQ

/-! ## Fifo<T>  (PluginProcessor.h, lines 22–86)

`Fifo` stores `std::array<T, Capacity> buffers` and a
`juce::AbstractFifo fifo {Capacity}` with `Capacity = 30`.  The array is
modelled as a total function `Nat → α`; every access performed by the code
stays below `fifoCapacity`.  `juce::AbstractFifo` keeps two indices
`validStart`/`validEnd` and, in `prepareToWrite`, clamps the write count to
`freeSpace - 1`, so one of the 30 slots is always kept free. -/

/-- `static constexpr int Capacity = 30;` -/
def fifoCapacity : Nat := 30

/-- State of one `Fifo<T>`: the slot array plus the `AbstractFifo` indices. -/
structure FifoState (α : Type) where
  buffers : Nat → α
  validStart : Nat
  validEnd : Nat

/-- `juce::AbstractFifo::getNumReady()`:
`ve >= vs ? ve - vs : bufferSize - (vs - ve)`.
Exposed by `Fifo::getNumAvailableForReading`. -/
def fifoNumReady (s : FifoState α) : Nat :=
  if s.validStart ≤ s.validEnd then s.validEnd - s.validStart
  else fifoCapacity - (s.validStart - s.validEnd)

/-- `Fifo<T>::push(const T&)`: `fifo.write (1)` runs
`AbstractFifo::prepareToWrite (1, …)` —
`freeSpace = ve >= vs ? bufferSize - (ve - vs) : vs - ve;`
`numToWrite = jmin (numToWrite, freeSpace - 1);` — writes
`buffers[startIndex1] = t` when `blockSize1 > 0`, and the scoped write's
destructor runs `finishedWrite (blockSize1 + blockSize2)`, which advances
`validEnd` modulo the capacity.  (In C++, `freeSpace - 1` is `-1` when
`freeSpace = 0`; truncated `Nat` subtraction lands in the same
`numToWrite ≤ 0` branch.) -/
def fifoPush (t : α) (s : FifoState α) : Bool × FifoState α :=
  let vs := s.validStart
  let ve := s.validEnd
  let freeSpace := if vs ≤ ve then fifoCapacity - (ve - vs) else vs - ve
  let numToWrite := min 1 (freeSpace - 1)
  if numToWrite = 0 then
    (false, s)
  else
    let blockSize1 := min (fifoCapacity - ve) numToWrite
    let blockSize2 := numToWrite - blockSize1
    let newEnd := ve + blockSize1 + blockSize2
    (decide (0 < blockSize1),
     { buffers := if 0 < blockSize1 then Function.update s.buffers ve t else s.buffers
       validStart := vs
       validEnd := if fifoCapacity ≤ newEnd then newEnd - fifoCapacity else newEnd })

/-- `Fifo<T>::pull(T&)`: `fifo.read (1)` runs `AbstractFifo::prepareToRead`,
the item `buffers[startIndex1]` is copied out when `blockSize1 > 0`, and the
scoped read's destructor runs `finishedRead (blockSize1 + blockSize2)`,
advancing `validStart` modulo the capacity. -/
def fifoPull (s : FifoState α) : Option α × FifoState α :=
  let vs := s.validStart
  let ve := s.validEnd
  let numReady := if vs ≤ ve then ve - vs else fifoCapacity - (vs - ve)
  let numWanted := min 1 numReady
  if numWanted = 0 then
    (none, s)
  else
    let blockSize1 := min (fifoCapacity - vs) numWanted
    let blockSize2 := numWanted - blockSize1
    let newStart := vs + blockSize1 + blockSize2
    ((if 0 < blockSize1 then some (s.buffers vs) else none),
     { buffers := s.buffers
       validStart := if fifoCapacity ≤ newStart then newStart - fifoCapacity else newStart
       validEnd := ve })

/-- A freshly constructed `Fifo`: `AbstractFifo` starts with
`validStart = validEnd = 0`; every slot holds the prepared/default element. -/
def emptyFifo (a0 : α) : FifoState α :=
  { buffers := fun _ => a0, validStart := 0, validEnd := 0 }

/-- Push a whole list of items, first to last, collecting each push's result. -/
def fifoPushAll (l : List α) (s : FifoState α) : List Bool × FifoState α :=
  match l with
  | [] => ([], s)
  | t :: ts =>
    let r := fifoPush t s
    let rest := fifoPushAll ts r.2
    (r.1 :: rest.1, rest.2)

/-- Pull `n` times, collecting each pull's result. -/
def fifoPullN : Nat → FifoState α → List (Option α) × FifoState α
  | 0, s => ([], s)
  | n + 1, s =>
    let r := fifoPull s
    let rest := fifoPullN n r.2
    (r.1 :: rest.1, rest.2)

/-- The ring-buffer round trip of §8 of the spec: from a fresh `Fifo`, push
the items of `L` in order, then pull `L.length` times. -/
def pushPullRoundtrip (a0 : α) (L : List α) : List Bool × List (Option α) :=
  let p := fifoPushAll L (emptyFifo a0)
  (p.1, (fifoPullN L.length p.2).1)

/-- Both `AbstractFifo` indices stay below the capacity; true initially and
preserved by every operation. -/
def FifoWF (s : FifoState α) : Prop :=
  s.validStart < fifoCapacity ∧ s.validEnd < fifoCapacity

/-- Expected slot contents after writing `L` into consecutive slots from `k`. -/
def overwriteFrom (b : Nat → α) (k : Nat) : List α → (Nat → α)
  | [] => b
  | t :: ts => overwriteFrom (Function.update b k t) (k + 1) ts

theorem fifoPush_mid (b : Nat → α) (k : Nat) (hk : k ≤ 28) (t : α) :
    fifoPush t ⟨b, 0, k⟩ = (true, ⟨Function.update b k t, 0, k + 1⟩) := by
  interval_cases k <;> rfl

theorem fifoPull_mid (b : Nat → α) (j m : Nat) (h1 : j < m) (h2 : m ≤ 29) :
    fifoPull ⟨b, j, m⟩ = (some (b j), ⟨b, j + 1, m⟩) := by
  unfold fifoPull
  simp only [fifoCapacity]
  rw [if_neg (by rw [if_pos (Nat.le_of_lt h1)]; omega)]
  have hb : min (30 - j) (min 1 (if j ≤ m then m - j else 30 - (j - m))) = 1 := by
    rw [if_pos (Nat.le_of_lt h1)]; omega
  simp only [hb]
  rw [if_pos (by omega), if_neg (by omega)]
  have hw : min 1 (if j ≤ m then m - j else 30 - (j - m)) = 1 := by
    rw [if_pos (Nat.le_of_lt h1)]; omega
  simp only [hw, Nat.sub_self, Nat.add_zero]

theorem fifoPushAll_mid (L : List α) (b : Nat → α) (k : Nat)
    (h : k + L.length ≤ 29) :
    fifoPushAll L ⟨b, 0, k⟩ =
      (List.replicate L.length true, ⟨overwriteFrom b k L, 0, k + L.length⟩) := by
  induction L generalizing b k with
  | nil => simp [fifoPushAll, overwriteFrom]
  | cons t ts ih =>
    have hk : k ≤ 28 := by simp at h; omega
    rw [fifoPushAll, fifoPush_mid b k hk t]
    simp only
    rw [ih (Function.update b k t) (k + 1) (by simp at h ⊢; omega)]
    simp [overwriteFrom, List.replicate_succ]
    omega

theorem overwriteFrom_lt (L : List α) (b : Nat → α) (k i : Nat) (h : i < k) :
    overwriteFrom b k L i = b i := by
  induction L generalizing b k with
  | nil => rfl
  | cons t ts ih =>
    rw [overwriteFrom, ih _ _ (Nat.lt_succ_of_lt h),
        Function.update_noteq (Nat.ne_of_lt h)]

theorem overwriteFrom_get (L : List α) (b : Nat → α) (k i : Nat)
    (h : i < L.length) :
    overwriteFrom b k L (k + i) = L.get ⟨i, h⟩ := by
  induction L generalizing b k i with
  | nil => simp at h
  | cons t ts ih =>
    cases i with
    | zero =>
      simp only [overwriteFrom, Nat.add_zero]
      rw [overwriteFrom_lt ts (Function.update b k t) (k + 1) k (Nat.lt_succ_self k),
          Function.update_same]
      rfl
    | succ i =>
      simp only [overwriteFrom]
      have hrw : k + (i + 1) = (k + 1) + i := by omega
      rw [hrw, ih (Function.update b k t) (k + 1) i (by simp at h; omega)]
      rfl

theorem fifoPullN_mid (n : Nat) (b : Nat → α) (j : Nat) (h : j + n ≤ 29) :
    fifoPullN n ⟨b, j, j + n⟩ =
      ((List.range n).map (fun i => some (b (j + i))), ⟨b, j + n, j + n⟩) := by
  induction n generalizing j with
  | zero => simp [fifoPullN]
  | succ n ih =>
    rw [fifoPullN, fifoPull_mid b j (j + (n + 1)) (by omega) (by omega)]
    simp only
    have hrw : j + (n + 1) = (j + 1) + n := by omega
    rw [hrw, ih (j + 1) (by omega)]
    have h3 : ((fun i => some (b (j + i))) ∘ Nat.succ) = fun i => some (b (j + 1 + i)) := by
      funext i
      show some (b (j + Nat.succ i)) = some (b (j + 1 + i))
      have hji : j + Nat.succ i = j + 1 + i := by omega
      rw [hji]
    rw [List.range_succ_eq_map, List.map_cons, List.map_map, h3]
    simp

theorem fifoPush_false_iff (t : α) (s : FifoState α) (hwf : FifoWF s) :
    (fifoPush t s).1 = false ↔ fifoNumReady s = 29 := by
  obtain ⟨h1, h2⟩ := hwf
  rcases s with ⟨b, vs, ve⟩
  simp only [fifoCapacity] at h1 h2
  simp only [fifoPush, fifoNumReady, fifoCapacity]
  by_cases hle : vs ≤ ve
  · simp only [if_pos hle]
    by_cases hz : min 1 (30 - (ve - vs) - 1) = 0
    · simp only [if_pos hz]
      simp
      omega
    · simp only [if_neg hz]
      simp only [decide_eq_false_iff_not]
      omega
  · simp only [if_neg hle]
    by_cases hz : min 1 (vs - ve - 1) = 0
    · simp only [if_pos hz]
      simp
      omega
    · simp only [if_neg hz]
      simp only [decide_eq_false_iff_not]
      omega

theorem fifoPush_false_unchanged (t : α) (s : FifoState α) (hwf : FifoWF s)
    (hfail : (fifoPush t s).1 = false) : (fifoPush t s).2 = s := by
  obtain ⟨h1, h2⟩ := hwf
  rcases s with ⟨b, vs, ve⟩
  simp only [fifoCapacity] at h1 h2
  simp only [fifoPush, fifoCapacity] at hfail ⊢
  by_cases hz : min 1 ((if vs ≤ ve then 30 - (ve - vs) else vs - ve) - 1) = 0
  · simp [hz]
  · exfalso
    simp only [if_neg hz, decide_eq_false_iff_not] at hfail
    by_cases hle : vs ≤ ve <;> simp only [if_pos, if_neg, hle] at hz hfail <;> omega

theorem fifoPull_none_iff (s : FifoState α) (hwf : FifoWF s) :
    (fifoPull s).1 = none ↔ fifoNumReady s = 0 := by
  obtain ⟨h1, h2⟩ := hwf
  rcases s with ⟨b, vs, ve⟩
  simp only [fifoCapacity] at h1 h2
  simp only [fifoPull, fifoNumReady, fifoCapacity]
  by_cases hle : vs ≤ ve
  · simp only [if_pos hle]
    by_cases hz : min 1 (ve - vs) = 0
    · simp only [if_pos hz]
      simp
      omega
    · simp only [if_neg hz]
      have hb : min (30 - vs) (min 1 (ve - vs)) = 1 := by omega
      simp [hb]
      omega
  · simp only [if_neg hle]
    by_cases hz : min 1 (30 - (vs - ve)) = 0
    · simp only [if_pos hz]
      simp
      omega
    · simp only [if_neg hz]
      have hb : min (30 - vs) (min 1 (30 - (vs - ve))) = 1 := by omega
      simp [hb]
      omega

theorem fifo_roundtrip (a0 : α) (L : List α) (h : L.length ≤ 29) :
    pushPullRoundtrip a0 L = (List.replicate L.length true, L.map some) := by
  unfold pushPullRoundtrip emptyFifo
  rw [fifoPushAll_mid L (fun _ => a0) 0 (by omega)]
  simp only
  rw [fifoPullN_mid L.length (overwriteFrom (fun _ => a0) 0 L) 0 (by omega)]
  simp only
  congr 1
  apply List.ext_getElem
  · simp
  · intro n hn1 hn2
    simp only [List.getElem_map, List.getElem_range]
    have hg := overwriteFrom_get L (fun _ => a0) 0 n (by simpa using hn2)
    simp only [Nat.zero_add] at hg ⊢
    rw [hg]
    rfl

/-- C5 (amended): for the fixed-capacity `Fifo` built on `juce::AbstractFifo`
with `Capacity = 30`, a sequence of N pushes followed by N pulls, with
N at most 29 and starting from an empty queue, succeeds throughout and
returns the N items unchanged in first-in-first-out order; `push` returns
`false` (and leaves the queue unchanged) exactly when 29 unread items are
held — one of the 30 slots is always kept free by `AbstractFifo` — and
`pull` returns `false` exactly when the queue is empty. -/
theorem fifo_claim5_spec (α : Type) (a0 : α) (L : List α) (h : L.length ≤ 29) :
    pushPullRoundtrip a0 L = (List.replicate L.length true, L.map some) ∧
    (∀ (t : α) (s : FifoState α), FifoWF s →
      (((fifoPush t s).1 = false ↔ fifoNumReady s = 29) ∧
       ((fifoPush t s).1 = false → (fifoPush t s).2 = s))) ∧
    (∀ s : FifoState α, FifoWF s → ((fifoPull s).1 = none ↔ fifoNumReady s = 0)) :=
  ⟨fifo_roundtrip a0 L h,
   fun t s hwf => ⟨fifoPush_false_iff t s hwf, fifoPush_false_unchanged t s hwf⟩,
   fun s hwf => fifoPull_none_iff s hwf⟩

/-- Witness for C5's amended theorem at the concrete input `[3, 1, 4]`. -/
theorem fifo_claim5_spec_witness :
    ([3, 1, 4] : List ℕ).length ≤ 29 ∧
    pushPullRoundtrip 0 [3, 1, 4] = ([true, true, true], [some 3, some 1, some 4]) := by
  refine ⟨by decide, ?_⟩
  have h := (fifo_claim5_spec ℕ 0 [3, 1, 4] (by decide)).1
  simpa using h

set_option maxRecDepth 4000 in
/-- C5 counterexample: starting from an empty `Fifo` and pushing the 30 items
`0, …, 29` in order, the 30th push returns `false` although only 29 unread
items are held at that point — refuting "push returns false (…) exactly when
30 unread items are held" and the N = 30 round trip. -/
theorem fifo_claim5_counterexample :
    (fifoPush 29 (fifoPushAll (List.range 29) (emptyFifo 0)).2).1 = false ∧
    fifoNumReady (fifoPushAll (List.range 29) (emptyFifo 0)).2 = 29 := by
  decide

/-! ## Slope and the cascaded cut filter (PluginProcessor.h, lines 153–242)

Coefficient values are kept abstract (`C`): the cut-filter update logic moves
whole coefficient sets around without inspecting them. -/

/-- `enum Slope { SLOPE_12, SLOPE_24, SLOPE_36, SLOPE_48 }` -/
inductive Slope where
  | SLOPE_12
  | SLOPE_24
  | SLOPE_36
  | SLOPE_48
deriving DecidableEq

/-- The underlying integer value of the `Slope` enumerator (0 … 3). -/
def Slope.val : Slope → Nat
  | .SLOPE_12 => 0
  | .SLOPE_24 => 1
  | .SLOPE_36 => 2
  | .SLOPE_48 => 3

/-- One `juce::dsp::IIR::Filter` link of a processing chain: its active
coefficient set plus the owning `ProcessorChain`'s bypass flag for it. -/
structure FilterStage (C : Type) where
  coefficients : C
  bypassed : Bool
deriving DecidableEq

/-- `using CutFilter = juce::dsp::ProcessorChain<Filter, Filter, Filter, Filter>`:
four 12 dB/oct sections, accessed by `get<0>` … `get<3>`. -/
structure CutFilter4 (C : Type) where
  f0 : FilterStage C
  f1 : FilterStage C
  f2 : FilterStage C
  f3 : FilterStage C
deriving DecidableEq

/-- `chain.template get<I>()` as a function of the section index. -/
def CutFilter4.stage (c : CutFilter4 C) : Fin 4 → FilterStage C
  | 0 => c.f0
  | 1 => c.f1
  | 2 => c.f2
  | 3 => c.f3

/-- `chain.template setBypassed<I>(b)`. -/
def CutFilter4.setBypassed (c : CutFilter4 C) (i : Fin 4) (b : Bool) : CutFilter4 C :=
  match i with
  | 0 => { c with f0 := { c.f0 with bypassed := b } }
  | 1 => { c with f1 := { c.f1 with bypassed := b } }
  | 2 => { c with f2 := { c.f2 with bypassed := b } }
  | 3 => { c with f3 := { c.f3 with bypassed := b } }

/-- `*chain.get<I>().coefficients = v` — replace section `I`'s coefficients. -/
def CutFilter4.setCoefficients (c : CutFilter4 C) (i : Fin 4) (v : C) : CutFilter4 C :=
  match i with
  | 0 => { c with f0 := { c.f0 with coefficients := v } }
  | 1 => { c with f1 := { c.f1 with coefficients := v } }
  | 2 => { c with f2 := { c.f2 with coefficients := v } }
  | 3 => { c with f3 := { c.f3 with coefficients := v } }

/-- Modelled from the spec: `updateCoefficients(old, replacement)` is declared
in PluginProcessor.h (line 189) but its definition is not among the
repository sources; §3 of the spec describes coefficient replacement as a
whole-value swap ("replacement is an atomic pointer/value swap, never an
in-place partial mutation"), so it is modelled as yielding the replacement
value for the stored coefficient set. -/
def updateCoefficients (_old replacement : C) : C :=
  replacement

/-- `updateFilterComponent<FilterComponentIndex>(chain, coefficients)`
(PluginProcessor.h, lines 195–203): write the freshly designed
`coefficients[Index]` into section `Index` of the chain, then stop
bypassing that section. -/
def updateFilterComponent (i : Fin 4) (chain : CutFilter4 C) (coeffs : Fin 4 → C) :
    CutFilter4 C :=
  (chain.setCoefficients i (updateCoefficients (chain.stage i).coefficients (coeffs i))).setBypassed
    i false

/-- `updateCutFilter(chain, coefficients, slope)` (PluginProcessor.h,
lines 206–242): bypass all four sections, then re-enable and refresh them by
falling through the `switch` cases (no `break`) from the selected slope down
to `SLOPE_12`. -/
def updateCutFilter (chain : CutFilter4 C) (coeffs : Fin 4 → C) (slope : Slope) :
    CutFilter4 C :=
  let c := (((chain.setBypassed 0 true).setBypassed 1 true).setBypassed 2 true).setBypassed 3
    true
  match slope with
  | .SLOPE_48 =>
    updateFilterComponent 0
      (updateFilterComponent 1 (updateFilterComponent 2 (updateFilterComponent 3 c coeffs)
        coeffs) coeffs) coeffs
  | .SLOPE_36 =>
    updateFilterComponent 0
      (updateFilterComponent 1 (updateFilterComponent 2 c coeffs) coeffs) coeffs
  | .SLOPE_24 =>
    updateFilterComponent 0 (updateFilterComponent 1 c coeffs) coeffs
  | .SLOPE_12 =>
    updateFilterComponent 0 c coeffs

theorem updateCutFilter_stage (chain : CutFilter4 C) (coeffs : Fin 4 → C)
    (slope : Slope) (i : Fin 4) :
    (updateCutFilter chain coeffs slope).stage i =
      { coefficients :=
          if i.val ≤ slope.val then coeffs i else (chain.stage i).coefficients
        bypassed := decide (slope.val < i.val) } := by
  cases slope <;> fin_cases i <;> rfl

/-- C3: for every slope `S` (enum value 0 … 3) and any coefficient sequence,
after `updateCutFilter(chain, coefficients, S)` a section is non-bypassed
exactly when its index is at most `S` — so the active sections are precisely
sections `0 … S`, and there are exactly `S + 1` of them. -/
theorem updateCutFilter_active_prefix (C : Type) (chain : CutFilter4 C)
    (coeffs : Fin 4 → C) (slope : Slope) :
    (∀ i : Fin 4,
      ((updateCutFilter chain coeffs slope).stage i).bypassed = false ↔
        i.val ≤ slope.val) ∧
    ((List.finRange 4).filter
        (fun i => !((updateCutFilter chain coeffs slope).stage i).bypassed)).length =
      slope.val + 1 := by
  have h : ∀ i : Fin 4,
      ((updateCutFilter chain coeffs slope).stage i).bypassed =
        decide (slope.val < i.val) := by
    intro i
    rw [updateCutFilter_stage]
  constructor
  · intro i
    rw [h i]
    simp [Nat.not_lt]
  · simp only [h]
    cases slope <;> decide

/-- C4 counterexample: with slope `SLOPE_12` and fresh coefficient values
`i + 1` per section, the bypassed section 3 keeps its previous coefficients
(`0`) instead of being refreshed to the freshly computed value `4`. -/
theorem updateCutFilter_stale_coeffs_counterexample :
    ((updateCutFilter (⟨⟨0, false⟩, ⟨0, false⟩, ⟨0, false⟩, ⟨0, false⟩⟩ : CutFilter4 ℕ)
        (fun i => i.val + 1) Slope.SLOPE_12).stage 3).coefficients = 0 ∧
    (fun i : Fin 4 => i.val + 1) 3 = 4 := by
  decide

/-- C4 (amended): `updateCutFilter(chain, coefficients, S)` replaces the
coefficients only of the re-enabled sections `0 … S`; each section left
bypassed (`S+1 … 3`) retains the coefficients it had before the call. -/
theorem updateCutFilter_coefficients_spec (C : Type) (chain : CutFilter4 C)
    (coeffs : Fin 4 → C) (slope : Slope) (i : Fin 4) :
    ((updateCutFilter chain coeffs slope).stage i).coefficients =
      if i.val ≤ slope.val then coeffs i else (chain.stage i).coefficients := by
  rw [updateCutFilter_stage]

/-! ## SingleChannelSampleFifo (PluginProcessor.h, lines 88–151)

Sample values are modelled as rationals; an audio buffer of one channel is a
`List ℚ` whose length is the buffer's `getNumSamples()`. -/

/-- State of a `SingleChannelSampleFifo<juce::AudioBuffer<float>>`: the
accumulation index `fifoIndex`, the block currently being filled
(`bufferToFill`) and the inner `Fifo` of completed blocks. -/
structure SCSFState where
  fifoIndex : Nat
  bufferToFill : List ℚ
  audioBufferFifo : FifoState (List ℚ)

/-- `SingleChannelSampleFifo::prepare(bufferSize)` (lines 109–122): size and
clear `bufferToFill`, prepare every slot of the inner `Fifo` to the same mono
size, and reset `fifoIndex` to 0. -/
def scsfPrepare (bufferSize : Nat) : SCSFState :=
  { fifoIndex := 0
    bufferToFill := List.replicate bufferSize 0
    audioBufferFifo := emptyFifo (List.replicate bufferSize 0) }

/-- `SingleChannelSampleFifo::pushNextSampleIntoFifo(sample)`
(lines 137–150): if the accumulation buffer is full, push it into the inner
`Fifo` — the push's result `ok` is explicitly ignored — and restart at index
0; then store the sample at `fifoIndex` and advance the index. -/
def pushNextSampleIntoFifo (sample : ℚ) (st : SCSFState) : SCSFState :=
  let st1 :=
    if st.fifoIndex = st.bufferToFill.length then
      { st with
        audioBufferFifo := (fifoPush st.bufferToFill st.audioBufferFifo).2
        fifoIndex := 0 }
    else st
  { st1 with
    bufferToFill := st1.bufferToFill.set st1.fifoIndex sample
    fifoIndex := st1.fifoIndex + 1 }

/-- `SingleChannelSampleFifo::update(buffer)` (lines 97–107): feed every
sample of the block, in order, through `pushNextSampleIntoFifo`. -/
def scsfUpdate (samples : List ℚ) (st : SCSFState) : SCSFState :=
  samples.foldl (fun s x => pushNextSampleIntoFifo x s) st

/-- The C10 data invariant: the accumulation buffer and every block slot of
the inner `Fifo` hold exactly `bufferSize` samples, and the index never
exceeds `bufferSize`. -/
def SCSFInv (bufferSize : Nat) (st : SCSFState) : Prop :=
  st.bufferToFill.length = bufferSize ∧ st.fifoIndex ≤ bufferSize ∧
  ∀ i, (st.audioBufferFifo.buffers i).length = bufferSize

theorem fifoPush_buffers_cases (t : α) (s : FifoState α) (i : Nat) :
    ((fifoPush t s).2).buffers i = t ∨ ((fifoPush t s).2).buffers i = s.buffers i := by
  rcases s with ⟨b, vs, ve⟩
  simp only [fifoPush]
  by_cases hz : min 1 ((if vs ≤ ve then fifoCapacity - (ve - vs) else vs - ve) - 1) = 0
  · simp [hz]
  · simp only [if_neg hz]
    by_cases hb : 0 < min (fifoCapacity - ve)
        (min 1 ((if vs ≤ ve then fifoCapacity - (ve - vs) else vs - ve) - 1))
    · simp only [if_pos hb]
      by_cases hi : i = ve
      · subst hi
        left
        simp [Function.update_same]
      · right
        simp [Function.update_noteq hi]
    · simp [hb]

theorem scsf_step_inv (bufferSize : Nat) (h1 : 1 ≤ bufferSize) (sample : ℚ)
    (st : SCSFState) (hinv : SCSFInv bufferSize st) :
    SCSFInv bufferSize (pushNextSampleIntoFifo sample st) ∧
      1 ≤ (pushNextSampleIntoFifo sample st).fifoIndex := by
  obtain ⟨hl, hi, hf⟩ := hinv
  unfold pushNextSampleIntoFifo
  by_cases hfull : st.fifoIndex = st.bufferToFill.length
  · simp only [if_pos hfull]
    refine ⟨⟨by simp [hl], by simp; omega, ?_⟩, by simp⟩
    intro i
    rcases fifoPush_buffers_cases st.bufferToFill st.audioBufferFifo i with hc | hc <;>
      simp [hc, hl, hf]
  · simp only [if_neg hfull]
    have hlt : st.fifoIndex < bufferSize := by omega
    exact ⟨⟨by simp [hl], by simp; omega, fun i => hf i⟩, by simp⟩

theorem scsf_fold_inv (bufferSize : Nat) (h1 : 1 ≤ bufferSize) (samples : List ℚ)
    (st : SCSFState) (hinv : SCSFInv bufferSize st) :
    SCSFInv bufferSize (scsfUpdate samples st) ∧
      (samples ≠ [] → 1 ≤ (scsfUpdate samples st).fifoIndex) := by
  induction samples generalizing st with
  | nil => exact ⟨hinv, fun h => absurd rfl h⟩
  | cons x xs ih =>
    obtain ⟨hstep, hge1⟩ := scsf_step_inv bufferSize h1 x st hinv
    have hrec := ih (pushNextSampleIntoFifo x st) hstep
    refine ⟨hrec.1, fun _ => ?_⟩
    cases xs with
    | nil => simpa [scsfUpdate] using hge1
    | cons y ys => exact hrec.2 (by simp)

/-- C10: once `prepare(bufferSize)` has run (`bufferSize ≥ 1`), after any
nonempty sequence of `pushNextSampleIntoFifo` calls the accumulation buffer
and every block held in the inner `Fifo` contain exactly `bufferSize`
samples (a block is pushed only when completely filled), the accumulation
index satisfies `1 ≤ fifoIndex ≤ bufferSize`, and accumulation continues
unconditionally: the resulting `fifoIndex` is determined by the pre-call
index alone, whether or not the inner `Fifo` accepted or dropped the push. -/
theorem scsf_accumulation_invariants (bufferSize : Nat) (h1 : 1 ≤ bufferSize)
    (samples : List ℚ) (h2 : samples ≠ []) :
    ((scsfUpdate samples (scsfPrepare bufferSize)).bufferToFill.length = bufferSize ∧
     1 ≤ (scsfUpdate samples (scsfPrepare bufferSize)).fifoIndex ∧
     (scsfUpdate samples (scsfPrepare bufferSize)).fifoIndex ≤ bufferSize ∧
     ∀ i, ((scsfUpdate samples (scsfPrepare bufferSize)).audioBufferFifo.buffers i).length =
       bufferSize) ∧
    (∀ (sample : ℚ) (st : SCSFState),
      (pushNextSampleIntoFifo sample st).fifoIndex =
        (if st.fifoIndex = st.bufferToFill.length then 0 else st.fifoIndex) + 1) := by
  have hprep : SCSFInv bufferSize (scsfPrepare bufferSize) := by
    refine ⟨by simp [scsfPrepare], by simp [scsfPrepare], ?_⟩
    intro i
    simp [scsfPrepare, emptyFifo]
  obtain ⟨⟨ha, hb, hc⟩, hd⟩ := scsf_fold_inv bufferSize h1 samples (scsfPrepare bufferSize) hprep
  refine ⟨⟨ha, hd h2, hb, hc⟩, ?_⟩
  intro sample st
  unfold pushNextSampleIntoFifo
  by_cases hfull : st.fifoIndex = st.bufferToFill.length <;> simp [hfull]

/-- Witness for C10 at `bufferSize = 2` and the samples `[1, 2, 3]`. -/
theorem scsf_accumulation_invariants_witness :
    (1 ≤ 2 ∧ ([1, 2, 3] : List ℚ) ≠ []) ∧
    ((scsfUpdate [1, 2, 3] (scsfPrepare 2)).bufferToFill.length = 2 ∧
     1 ≤ (scsfUpdate [1, 2, 3] (scsfPrepare 2)).fifoIndex ∧
     (scsfUpdate [1, 2, 3] (scsfPrepare 2)).fifoIndex ≤ 2 ∧
     ∀ i, ((scsfUpdate [1, 2, 3] (scsfPrepare 2)).audioBufferFifo.buffers i).length = 2) ∧
    (∀ (sample : ℚ) (st : SCSFState),
      (pushNextSampleIntoFifo sample st).fifoIndex =
        (if st.fifoIndex = st.bufferToFill.length then 0 else st.fifoIndex) + 1) := by
  have h := scsf_accumulation_invariants 2 (by decide) [1, 2, 3] (by simp)
  exact ⟨⟨by decide, by simp⟩, h.1, h.2⟩

/-! ## Cross-thread change signal (PluginEditor.cpp, lines 225–242)

`ResponseCurve` keeps `juce::Atomic<bool> parametersChanged { false }`
(PluginEditor.h, line 224).  `parameterValueChanged` — registered as a
listener of every processor parameter — sets it from any thread; the 60 Hz
`timerCallback` clears it with `compareAndSetBool (false, true)` and, exactly
when that compare-and-swap fired, runs `updateChain()` (the recompute) and
repaints.  An interleaving of listener calls and timer ticks is modelled as
a list of events applied to the flag in order; a change arriving during an
in-progress recompute is an event ordered after that tick's swap. -/

/-- One event seen by the `parametersChanged` flag: a parameter change
(`parameterValueChanged`, for any of the seven parameters) or one timer tick
(`timerCallback`). -/
inductive ParamEvent where
  | change
  | tick
deriving DecidableEq

/-- Effect of one event on the flag: `parameterValueChanged` runs
`parametersChanged.set (true)`; `timerCallback` runs
`parametersChanged.compareAndSetBool (false, true)`, which stores `false`
only when the current value is `true` and otherwise leaves it unchanged. -/
def stepFlag (flag : Bool) : ParamEvent → Bool
  | .change => true
  | .tick => if flag then false else flag

/-- Whether a tick's compare-and-swap fired: `compareAndSetBool (false, true)`
returns `true` exactly when the flag was `true`; only then does
`timerCallback` call `updateChain()`. -/
def tickRecomputes (flag : Bool) : Bool := flag

/-- Run a sequence of events over the flag, counting the recompute passes
(`updateChain()` calls) performed by the ticks; returns the final flag value
and that count. -/
def runEvents : Bool → List ParamEvent → Bool × Nat
  | f, [] => (f, 0)
  | f, e :: es =>
    let fired := match e with | .tick => tickRecomputes f | .change => false
    let rest := runEvents (stepFlag f e) es
    (rest.1, (if fired then 1 else 0) + rest.2)

theorem runEvents_from_true (post : List ParamEvent) :
    if ParamEvent.tick ∈ post then 1 ≤ (runEvents true post).2
    else (runEvents true post).1 = true := by
  induction post with
  | nil => simp [runEvents]
  | cons e es ih =>
    cases e with
    | change => simpa [runEvents, stepFlag, tickRecomputes] using ih
    | tick => simp [runEvents, stepFlag, tickRecomputes, Nat.le_add_right]

/-- C6: any parameter change sets the `parametersChanged` flag; a timer tick
clears it with the compare-and-swap and triggers a recompute exactly when it
was set, leaving it `false` otherwise; consequently, whatever the prior flag
value, after a change — however it interleaves with further changes and
ticks, including a change arriving right after a tick's clear during that
tick's recompute — any following tick sequence with at least one tick
performs a recompute pass, and if no tick follows, the flag is still set:
no update is lost. -/
theorem changeSignal_no_lost_update (f : Bool) (post : List ParamEvent) :
    stepFlag f ParamEvent.change = true ∧
    (stepFlag true ParamEvent.tick = false ∧ tickRecomputes true = true) ∧
    (stepFlag false ParamEvent.tick = false ∧ tickRecomputes false = false) ∧
    (if ParamEvent.tick ∈ post then
      1 ≤ (runEvents (stepFlag f ParamEvent.change) post).2
    else (runEvents (stepFlag f ParamEvent.change) post).1 = true) := by
  refine ⟨rfl, ⟨rfl, rfl⟩, ⟨rfl, rfl⟩, ?_⟩
  have h : stepFlag f ParamEvent.change = true := rfl
  rw [h]
  exact runEvents_from_true post

/-! ## AnalyzerPathGenerator (PluginEditor.h, lines 86–151)

The float values flowing out of the dB conversion can be NaN or infinite, so
they are modelled by `FloatV`: a finite value carries an exact rational; the
NaN and ±Inf cases are collapsed into one non-finite constructor, which is
all `!std::isnan (y) && !std::isinf (y)` distinguishes. -/

/-- A float y-value in the path generator: finite, or NaN/Inf. -/
inductive FloatV where
  | num (q : ℚ)
  | nonFinite
deriving DecidableEq

/-- `!std::isnan (y) && !std::isinf (y)` -/
def FloatV.isFinite : FloatV → Bool
  | .num _ => true
  | .nonFinite => false

/-- The generator's `map` lambda,
`juce::jmap (v, negativeInf, 0.f, float (bottom), top)` =
`bottom + ((top - bottom) * (v - negativeInf)) / (0 - negativeInf)`.
A NaN/Inf input propagates through the float arithmetic; when
`negativeInf = 0` the division is by zero, which yields NaN or ±Inf. -/
def mapToY (negativeInf bottom top : ℚ) : FloatV → FloatV
  | .nonFinite => .nonFinite
  | .num v =>
    if negativeInf = 0 then .nonFinite
    else .num (bottom + (top - bottom) * (v - negativeInf) / (0 - negativeInf))

/-- `juce::mapFromLog10 (v, lo, hi)` =
`(log10 (v) - log10 (lo)) / (log10 (hi) - log10 (lo))`, with `std::log10`
abstracted as a parameter. -/
def mapFromLog10Q (log10 : ℚ → ℚ) (v lo hi : ℚ) : ℚ :=
  (log10 v - log10 lo) / (log10 hi - log10 lo)

/-- One vertex-producing `juce::Path` operation recorded by the generator. -/
inductive PathCmd where
  | startSub (x : ℚ) (y : FloatV)
  | lineTo (x : ℤ) (y : FloatV)
deriving DecidableEq

/-- The y-coordinate at which a command places its vertex. -/
def PathCmd.yVal : PathCmd → FloatV
  | .startSub _ y => y
  | .lineTo _ y => y

/-- The generator's loop over bins `binNum = 1, 3, 5, …` (`pathResolution =
2`): map the bin's dB value to a y; when the result is finite, emit a
`lineTo` at `binX = floor (mapFromLog10 (binNum * binWidth, 1, 20000) *
width)`; otherwise skip the point.  Structural recursion on a fuel that
starts at `numBins`, an upper bound on the iteration count since `binNum`
strictly grows. -/
def pathLoop (log10 : ℚ → ℚ) (renderData : List FloatV)
    (negativeInf bottom top width binWidth : ℚ) (numBins : Nat) :
    Nat → Nat → List PathCmd
  | _, 0 => []
  | binNum, fuel + 1 =>
    if binNum < numBins then
      (let y := mapToY negativeInf bottom top (renderData.getD binNum (.num 0))
       if y.isFinite then
         let binFreq := (binNum : ℚ) * binWidth
         let normalizedBinX := mapFromLog10Q log10 binFreq 1 20000
         let binX := ⌊normalizedBinX * width⌋
         [PathCmd.lineTo binX y]
       else []) ++
        pathLoop log10 renderData negativeInf bottom top width binWidth numBins
          (binNum + 2) fuel
    else []

/-- `AnalyzerPathGenerator::generatePath (renderData, fftBounds, fftSize,
binWidth, negativeInf)` (PluginEditor.h, lines 91–138), as the list of
vertex-producing path operations.  `top = fftBounds.getY()`, `bottom =
fftBounds.getHeight()`, `width = fftBounds.getWidth()`, `numBins = fftSize /
2`.  The first point, from `renderData[0]`, is started unconditionally with
`p.startNewSubPath (0, y)` — its finiteness is only asserted via a
debug-build `jassert` — and the loop then emits `lineTo`s for finite points
of bins 1, 3, 5, … only. -/
def generatePath (log10 : ℚ → ℚ) (renderData : List FloatV)
    (top bottom width : ℚ) (fftSize : Nat) (binWidth negativeInf : ℚ) :
    List PathCmd :=
  let numBins := fftSize / 2
  let y0 := mapToY negativeInf bottom top (renderData.getD 0 (.num 0))
  PathCmd.startSub 0 y0 ::
    pathLoop log10 renderData negativeInf bottom top width binWidth numBins 1 numBins

/-- C7 counterexample: a render-data array whose bin 0 is NaN/Inf makes
`generatePath` emit a path vertex with a non-finite y-coordinate (the
unconditional `startNewSubPath`), so not every non-finite computed point is
skipped; the claim fails on the first element. -/
theorem generatePath_emits_nonfinite_bin0 :
    (generatePath id [FloatV.nonFinite, FloatV.num (-50)] 0 100 200 4 100
        (-100)).head? = some (PathCmd.startSub 0 FloatV.nonFinite) ∧
    ((generatePath id [FloatV.nonFinite, FloatV.num (-50)] 0 100 200 4 100
        (-100)).all (fun c => c.yVal.isFinite)) = false := by
  decide

theorem pathLoop_all_finite (log10 : ℚ → ℚ) (renderData : List FloatV)
    (negativeInf bottom top width binWidth : ℚ) (numBins : Nat)
    (fuel binNum : Nat) :
    ((pathLoop log10 renderData negativeInf bottom top width binWidth numBins
        binNum fuel).all (fun c => c.yVal.isFinite)) = true := by
  induction fuel generalizing binNum with
  | zero => rfl
  | succ fuel ih =>
    simp only [pathLoop]
    by_cases hlt : binNum < numBins
    · rw [if_pos hlt, List.all_append, ih, Bool.and_true]
      by_cases hy :
          (mapToY negativeInf bottom top (renderData.getD binNum (.num 0))).isFinite = true
      · rw [if_pos hy]
        simp only [List.all_cons, List.all_nil, Bool.and_true, PathCmd.yVal]
        exact hy
      · rw [if_neg hy]
        rfl
    · rw [if_neg hlt]
      rfl

/-- C7 (amended): in `generatePath`, every point emitted by the bin loop
(bins 1, 3, 5, …) has a finite y-coordinate — NaN/Inf points there are
skipped, no vertex is created from them — but the first point, computed
from bin 0, is emitted unconditionally as the subpath start whatever its
value (guarded only by a debug-build assertion). -/
theorem generatePath_skips_nonfinite_tail (log10 : ℚ → ℚ)
    (renderData : List FloatV) (top bottom width : ℚ) (fftSize : Nat)
    (binWidth negativeInf : ℚ) :
    ((generatePath log10 renderData top bottom width fftSize binWidth
        negativeInf).head? =
      some (PathCmd.startSub 0
        (mapToY negativeInf bottom top (renderData.getD 0 (.num 0))))) ∧
    ((generatePath log10 renderData top bottom width fftSize binWidth
        negativeInf).tail.all (fun c => c.yVal.isFinite)) = true := by
  constructor
  · rfl
  · exact pathLoop_all_finite log10 renderData negativeInf bottom top width binWidth
      (fftSize / 2) (fftSize / 2) 1

/-! ## FFTDataGenerator: normalize and convert to dB (PluginEditor.h,
lines 25–53)

The post-transform magnitudes in `fftData` are rationals here.
`juce::Decibels::gainToDecibels` calls `std::log10` only on strictly
positive gains, so the conversion is modelled with `log10` as an abstract
function parameter; none of the proved facts depend on its values. -/

/-- `juce::Decibels::gainToDecibels (gain, minusInfinityDb)` =
`gain > 0 ? jmax (minusInfinityDb, log10 (gain) * 20) : minusInfinityDb`. -/
def gainToDecibels (log10 : ℚ → ℚ) (gain minusInfinityDb : ℚ) : ℚ :=
  if 0 < gain then max minusInfinityDb (log10 gain * 20) else minusInfinityDb

/-- Index-aware map, embedding the `for (int i = 0; i < numBins; i++)` loops:
the function receives the running index starting at the given value. -/
def mapIdxFrom (f : Nat → ℚ → ℚ) : Nat → List ℚ → List ℚ
  | _, [] => []
  | i, v :: vs => f i v :: mapIdxFrom f (i + 1) vs

/-- The normalize-and-convert stage of
`FFTDataGenerator::produceFFTDataForRendering` (PluginEditor.h,
lines 38–50): with `numBins = fftSize / 2`, first `fftData[i] /= numBins`
for every `i < numBins`, then
`fftData[i] = gainToDecibels (fftData[i], negativeInf)` for every
`i < numBins`; entries from `numBins` on are left untouched. -/
def normalizeAndConvertToDb (log10 : ℚ → ℚ) (negativeInf : ℚ) (fftSize : Nat)
    (fftData : List ℚ) : List ℚ :=
  let numBins := fftSize / 2
  let normalized :=
    mapIdxFrom (fun i v => if i < numBins then v / (numBins : ℚ) else v) 0 fftData
  mapIdxFrom (fun i v => if i < numBins then gainToDecibels log10 v negativeInf else v) 0
    normalized

theorem mapIdxFrom_length (f : Nat → ℚ → ℚ) (k : Nat) (l : List ℚ) :
    (mapIdxFrom f k l).length = l.length := by
  induction l generalizing k with
  | nil => rfl
  | cons v vs ih => simp [mapIdxFrom, ih]

theorem mapIdxFrom_getD (f : Nat → ℚ → ℚ) (l : List ℚ) (k i : Nat)
    (h : i < l.length) :
    (mapIdxFrom f k l).getD i 0 = f (k + i) (l.getD i 0) := by
  induction l generalizing k i with
  | nil => simp at h
  | cons v vs ih =>
    cases i with
    | zero => rfl
    | succ i =>
      simp only [mapIdxFrom, List.getD_cons_succ]
      have hrw : k + (i + 1) = (k + 1) + i := by omega
      rw [hrw, ih (k + 1) i (by simp at h; omega)]

theorem gainToDecibels_ge (log10 : ℚ → ℚ) (gain minusInfinityDb : ℚ) :
    minusInfinityDb ≤ gainToDecibels log10 gain minusInfinityDb := by
  unfold gainToDecibels
  split_ifs
  · exact le_max_left _ _
  · exact le_refl _

/-- C8: for every bin `i < fftSize / 2` within the data array, the
normalize-and-convert stage produces
`gainToDecibels (fftData[i] / (fftSize/2), negativeInf)` — the bin is divided
by `size/2` and converted to decibels with the supplied floor substituted for
zero or negative magnitudes — and every produced bin is at least
`negativeInf`, a finite value, so no bin of the frame is negative
infinity. -/
theorem fft_normalize_convert_spec (log10 : ℚ → ℚ) (negativeInf : ℚ)
    (fftSize : Nat) (fftData : List ℚ) (i : Nat) (hbin : i < fftSize / 2)
    (hlen : i < fftData.length) :
    (normalizeAndConvertToDb log10 negativeInf fftSize fftData).getD i 0 =
      gainToDecibels log10 (fftData.getD i 0 / ((fftSize / 2 : Nat) : ℚ))
        negativeInf ∧
    negativeInf ≤ (normalizeAndConvertToDb log10 negativeInf fftSize fftData).getD i 0 := by
  have hmain :
      (normalizeAndConvertToDb log10 negativeInf fftSize fftData).getD i 0 =
        gainToDecibels log10 (fftData.getD i 0 / ((fftSize / 2 : Nat) : ℚ)) negativeInf := by
    unfold normalizeAndConvertToDb
    rw [mapIdxFrom_getD _ _ 0 i (by rw [mapIdxFrom_length]; exact hlen)]
    rw [mapIdxFrom_getD _ _ 0 i hlen]
    simp only [Nat.zero_add, if_pos hbin]
  exact ⟨hmain, by rw [hmain]; exact gainToDecibels_ge _ _ _⟩

/-- Witness for C8 at `fftSize = 4`, `fftData = [9, -1, 5]`, bin `i = 0`,
floor `-100`, with `log10` instantiated by the identity. -/
theorem fft_normalize_convert_spec_witness :
    ((0 : Nat) < 4 / 2 ∧ (0 : Nat) < ([9, -1, 5] : List ℚ).length) ∧
    ((normalizeAndConvertToDb id (-100) 4 [9, -1, 5]).getD 0 0 =
      gainToDecibels id (([9, -1, 5] : List ℚ).getD 0 0 / ((4 / 2 : Nat) : ℚ))
        (-100) ∧
     (-100 : ℚ) ≤ (normalizeAndConvertToDb id (-100) 4 [9, -1, 5]).getD 0 0) := by
  refine ⟨⟨by decide, by decide⟩, ?_⟩
  exact fft_normalize_convert_spec id (-100) 4 [9, -1, 5] 0 (by decide) (by decide)

/-! ## The processor and processBlock (PluginProcessor.h, lines 162–331;
PluginProcessor.cpp, lines 292–485) -/

/-- `struct ChainSettings` (PluginProcessor.h, lines 163–168): the parameter
snapshot that `getChainSettings (APVTS)` reads from the parameter store. -/
structure ChainSettings where
  lowCutFreq : ℚ
  highCutFreq : ℚ
  lowCutSlope : Slope
  highCutSlope : Slope
  peakFreq : ℚ
  peakGain_dB : ℚ
  peakQ : ℚ

/-- `using MonoChain = ProcessorChain<CutFilter, Filter, CutFilter>` with
`ChainPositions { LowCut, Peak, HighCut }`. -/
structure MonoChain (C : Type) where
  lowCut : CutFilter4 C
  peak : FilterStage C
  highCut : CutFilter4 C

/-- The configuration state of `_3BandEQAudioProcessor` that `processBlock`
can touch: the two mono chains (PluginProcessor.h, line 317) and the two
single-channel sample fifos (lines 312–313). -/
structure ProcessorState (C : Type) where
  leftChain : MonoChain C
  rightChain : MonoChain C
  leftChannelFIFO : SCSFState
  rightChannelFIFO : SCSFState

/-- The `switch (chainSettings.lowCutSlope)` statement inlined in
`processBlock` (PluginProcessor.cpp, lines 347–403 for the left chain,
410–466 for the right): bypass all four 12 dB/oct sections, then — per slope
case, each ending in `break` — assign the fresh coefficients and clear the
bypass flag of sections `slope … 0`, highest index first. -/
def processBlockCutSwitch (f : CutFilter4 C) (coeffs : Fin 4 → C) :
    Slope → CutFilter4 C :=
  fun slope =>
    let c := (((f.setBypassed 0 true).setBypassed 1 true).setBypassed 2 true).setBypassed
      3 true
    match slope with
    | .SLOPE_48 =>
      ((((((((c.setCoefficients 3 (coeffs 3)).setBypassed 3 false).setCoefficients 2
        (coeffs 2)).setBypassed 2 false).setCoefficients 1 (coeffs 1)).setBypassed 1
        false).setCoefficients 0 (coeffs 0)).setBypassed 0 false)
    | .SLOPE_36 =>
      ((((((c.setCoefficients 2 (coeffs 2)).setBypassed 2 false).setCoefficients 1
        (coeffs 1)).setBypassed 1 false).setCoefficients 0 (coeffs 0)).setBypassed 0 false)
    | .SLOPE_24 =>
      ((((c.setCoefficients 1 (coeffs 1)).setBypassed 1 false).setCoefficients 0
        (coeffs 0)).setBypassed 0 false)
    | .SLOPE_12 =>
      ((c.setCoefficients 0 (coeffs 0)).setBypassed 0 false)

/-- The state effect of `_3BandEQAudioProcessor::processBlock`
(PluginProcessor.cpp, lines 292–485).  The JUCE coefficient designs are
abstract parameters: `makePeakCoefficients settings` stands for
`IIR::Coefficients<float>::makePeakFilter (sampleRate, peakFreq, peakQ,
decibelsToGain (peakGain_dB))` (lines 321–324) and `designLowCut settings`
for `FilterDesign<float>::designIIRHighpassHighOrderButterworthMethod
(lowCutFreq, sampleRate, 2 * (lowCutSlope + 1))` (lines 335–341).  The
function reads the whole snapshot via `getChainSettings (APVTS)` (line 312),
writes the peak coefficients of both chains (lines 327–328), runs the
low-cut switch on both chains (lines 345–466), and then processes the audio
block through the chains (lines 472–484; pure per-sample DSP that touches
only the filters' delay registers, not the configuration state modelled
here).  The source contains no write to the `HighCut` links — the
`highCutFilterOrder` computation at line 336 is commented out and
`updateHighCutFilter` / `makeHighCutFilter` are never called — and no access
to `leftChannelFIFO` / `rightChannelFIFO`. -/
def processBlockUpdate (makePeakCoefficients : ChainSettings → C)
    (designLowCut : ChainSettings → Fin 4 → C) (settings : ChainSettings)
    (st : ProcessorState C) : ProcessorState C :=
  let peakCoefficients := makePeakCoefficients settings
  let lowCutCoefficients := designLowCut settings
  { leftChain :=
      { lowCut :=
          processBlockCutSwitch st.leftChain.lowCut lowCutCoefficients settings.lowCutSlope
        peak := { st.leftChain.peak with coefficients := peakCoefficients }
        highCut := st.leftChain.highCut }
    rightChain :=
      { lowCut :=
          processBlockCutSwitch st.rightChain.lowCut lowCutCoefficients settings.lowCutSlope
        peak := { st.rightChain.peak with coefficients := peakCoefficients }
        highCut := st.rightChain.highCut }
    leftChannelFIFO := st.leftChannelFIFO
    rightChannelFIFO := st.rightChannelFIFO }

/-- C1 fails on the code: for every parameter snapshot, `processBlock` leaves
the high-cut (low-pass) stage of both channel chains exactly as it was —
its coefficients and bypass flags never reflect `highCutFreq` or
`highCutSlope`, unlike the low-cut and peak stages. -/
theorem processBlock_highCut_untouched (C : Type)
    (makePeakCoefficients : ChainSettings → C)
    (designLowCut : ChainSettings → Fin 4 → C) (settings : ChainSettings)
    (st : ProcessorState C) :
    (processBlockUpdate makePeakCoefficients designLowCut settings
        st).leftChain.highCut = st.leftChain.highCut ∧
    (processBlockUpdate makePeakCoefficients designLowCut settings
        st).rightChain.highCut = st.rightChain.highCut :=
  ⟨rfl, rfl⟩

/-- C2 fails on the code: `processBlock` performs no access to the two
`SingleChannelSampleFifo` members — no invocation copies any sample of the
block into the left or right analysis queue. -/
theorem processBlock_fifos_untouched (C : Type)
    (makePeakCoefficients : ChainSettings → C)
    (designLowCut : ChainSettings → Fin 4 → C) (settings : ChainSettings)
    (st : ProcessorState C) :
    (processBlockUpdate makePeakCoefficients designLowCut settings
        st).leftChannelFIFO = st.leftChannelFIFO ∧
    (processBlockUpdate makePeakCoefficients designLowCut settings
        st).rightChannelFIFO = st.rightChannelFIFO :=
  ⟨rfl, rfl⟩

end ThreeBandEQ
